import Mathlib

/-!
Verification of a byte-pair-merge style tokenizer: a prefix trie of
registered tokens, a greedy encoder/decoder, a sequential vocabulary
builder and a chunked (fork-join) builder.

The Rust source uses hash maps; they are embedded as association lists
in insertion order, which serves as the deterministic stand-in for the
unspecified hash iteration order.  Mutating loops over a pointer become
fuel-indexed structural recursions (the fuel supplied at the call sites
is always sufficient, since each iteration advances the pointer).
Panics (`unwrap`, unmatched symbols, out-of-range indices) are embedded
as `Option.none`.
-/

set_option autoImplicit false

namespace BPE

variable {T : Type} [DecidableEq T]

/-- Lookup in an association list, first binding wins (models `HashMap.get`). -/
def assocGet {A B : Type} [DecidableEq A] (k : A) : List (A × B) → Option B
  | [] => none
  | (k', v) :: rest => if k' = k then some v else assocGet k rest

/-- Insert or update in an association list: an existing key is updated in
place, a fresh key is appended (models `HashMap.insert` / `entry`). -/
def assocUpd {A B : Type} [DecidableEq A] (k : A) (v : B) : List (A × B) → List (A × B)
  | [] => [(k, v)]
  | (k', v') :: rest => if k' = k then (k', v) :: rest else (k', v') :: assocUpd k v rest

/-- One position along a registered token's symbol path: the symbol, the
token id stored at this node, and the children keyed by next symbol.
Mirrors `struct Node<T>` of the source. -/
inductive Node (T : Type) : Type where
  | mk : T → Nat → List (T × Node T) → Node T

def Node.byteValue : Node T → T
  | .mk b _ _ => b

def Node.tokenValue : Node T → Nat
  | .mk _ tv _ => tv

def Node.children : Node T → List (T × Node T)
  | .mk _ _ ch => ch

/-- Mirrors `Node::new(byte_value, token_value)` for the non-empty slice
`b :: rest`: a length-one slice makes a terminal node carrying the real id,
a longer slice makes an intermediate node with placeholder id `0` and one
child built from the tail. -/
def Node.new (b : T) (rest : List T) (tv : Nat) : Node T :=
  match rest with
  | [] => .mk b tv []
  | r :: rs => .mk b 0 [(r, Node.new r rs tv)]

/-- Mirrors `Node::register`: on a length-one slice the node's id is
overwritten; otherwise descend into (or create) the child for the second
symbol.  The source indexes `byte_value[1]` and so never receives an empty
slice; the `[]` case is unreachable from `Tokenizer.register`. -/
def Node.register (n : Node T) (bv : List T) (tv : Nat) : Node T :=
  match bv with
  | [] => n
  | [_] => .mk n.byteValue tv n.children
  | _ :: r :: rs =>
    match assocGet r n.children with
    | none => .mk n.byteValue n.tokenValue (assocUpd r (Node.new r rs tv) n.children)
    | some c => .mk n.byteValue n.tokenValue (assocUpd r (c.register (r :: rs) tv) n.children)

/-- Mirrors `Node::tokenize`: advance the pointer by one, recurse into the
child matching the next symbol while one exists and the buffer has not
ended, else emit this node's stored id.  Returns (emitted id, new pointer).
The fuel argument only bounds the recursion; `x.length` is always enough. -/
def Node.tokenize (n : Node T) (x : List T) (p : Nat) : Nat → Nat × Nat
  | 0 => (n.tokenValue, p + 1)
  | fuel + 1 =>
    if h : p + 1 < x.length then
      match assocGet (x.get ⟨p + 1, h⟩) n.children with
      | some c => c.tokenize x (p + 1) fuel
      | none => (n.tokenValue, p + 1)
    else (n.tokenValue, p + 1)

/-- Mirrors `Node::tokenize_no_write`: the same walk, emitting nothing.
Returns the new pointer. -/
def Node.tokenizeNoWrite (n : Node T) (x : List T) (p : Nat) : Nat → Nat
  | 0 => p + 1
  | fuel + 1 =>
    if h : p + 1 < x.length then
      match assocGet (x.get ⟨p + 1, h⟩) n.children with
      | some c => c.tokenizeNoWrite x (p + 1) fuel
      | none => p + 1
    else p + 1

/-- Mirrors `struct Tokenizer<T>`: root-level trie nodes keyed by first
symbol, and the reverse lookup from token id to symbol sequence. -/
structure Tokenizer (T : Type) : Type where
  children : List (T × Node T)
  lookup : List (Nat × List T)

/-- Mirrors `Tokenizer::default`. -/
def Tokenizer.default : Tokenizer T := ⟨[], []⟩

/-- Mirrors `Tokenizer::register`: record the token in the lookup, then
either create a fresh root chain (inserting the lookup entry a second,
redundant time, as the source does) or descend into the existing root.
The source indexes `token[0]`; no call site passes an empty token, and the
empty case returns the tokenizer unchanged. -/
def Tokenizer.register (t : Tokenizer T) (token : List T) (tv : Nat) : Tokenizer T :=
  match token with
  | [] => t
  | b :: rest =>
    let lk := assocUpd tv (b :: rest) t.lookup
    match assocGet b t.children with
    | none => ⟨assocUpd b (Node.new b rest tv) t.children, assocUpd tv (b :: rest) lk⟩
    | some child => ⟨assocUpd b (child.register (b :: rest) tv) t.children, lk⟩

/-- Mirrors the `while` loop of `Tokenizer::tokenize`: at each position look
up the root child for the current symbol (`none` models the panic) and run
the node walk, which consumes at least one symbol and emits one id. -/
def Tokenizer.tokenizeLoop (t : Tokenizer T) (x : List T) : Nat → Nat → Option (List Nat)
  | 0, _ => none
  | fuel + 1, p =>
    if h : p < x.length then
      match assocGet (x.get ⟨p, h⟩) t.children with
      | none => none
      | some child =>
        (t.tokenizeLoop x fuel (child.tokenize x p x.length).2).map
          (fun rest => (child.tokenize x p x.length).1 :: rest)
    else some []

/-- Mirrors `Tokenizer::tokenize` called with pointer `0` and an empty
write buffer; `none` models the panic on an unmatched symbol. -/
def Tokenizer.tokenize (t : Tokenizer T) (x : List T) : Option (List Nat) :=
  t.tokenizeLoop x (x.length + 1) 0

/-- Mirrors `Tokenizer::tokenize_item_no_write`: find the root child for
the symbol under the pointer (`none` models the panic) and advance the
pointer through the value-less walk. -/
def Tokenizer.tokenizeItemNoWrite (t : Tokenizer T) (x : List T) (p : Nat) : Option Nat :=
  if h : p < x.length then
    match assocGet (x.get ⟨p, h⟩) t.children with
    | none => none
    | some child => some (child.tokenizeNoWrite x p x.length)
  else none

/-- Mirrors `Tokenizer::detokenize`: concatenate the lookup entries of the
ids in order; `none` models the `unwrap` panic on a missing id. -/
def Tokenizer.detokenize (t : Tokenizer T) : List Nat → Option (List T)
  | [] => some []
  | i :: rest =>
    match assocGet i t.lookup with
    | none => none
    | some v => (t.detokenize rest).map (fun w => v ++ w)

/-- The sub-slice `x[a..b]` of the corpus, as in the Rust range indexing. -/
def sliceOf (x : List T) (a b : Nat) : List T :=
  (x.drop a).take (b - a)

/-- Mirrors `pairs_count.entry(key).and_modify(|c| c += 1).or_insert(1)`. -/
def bump (k : List T) : List (List T × Nat) → List (List T × Nat)
  | [] => [(k, 1)]
  | (k', v) :: rest => if k' = k then (k', v + 1) :: rest else (k', v) :: bump k rest

/-- Mirrors the per-round counting loop shared by `generate` and the
closure of `parallel_generate_with_base_vocabulary`: walk a maximal trie
span from the pointer; if at least two symbols remain after the span,
consume one extra symbol and count the extended slice, otherwise count the
bare span; stop when the pointer reaches the end. -/
def pairCountLoop (t : Tokenizer T) (x : List T) :
    Nat → List (List T × Nat) → Nat → Option (List (List T × Nat))
  | 0, _, _ => none
  | fuel + 1, pairs, p =>
    if p < x.length then
      match t.tokenizeItemNoWrite x p with
      | none => none
      | some q =>
        if q < x.length - 1 then
          pairCountLoop t x fuel (bump (sliceOf x p (q + 1)) pairs) (q + 1)
        else
          pairCountLoop t x fuel (bump (sliceOf x p q) pairs) q
    else some pairs

/-- One round of candidate counting over one corpus (or chunk). -/
def pairCounts (t : Tokenizer T) (x : List T) : Option (List (List T × Nat)) :=
  pairCountLoop t x (x.length + 1) [] 0

/-- Mirrors `Iterator::max_by_key` on the count: the last maximal element
of the iteration is kept; `none` models the `unwrap` panic on an empty
candidate set. -/
def maxByVal : List (List T × Nat) → Option (List T × Nat)
  | [] => none
  | kv :: rest =>
    match maxByVal rest with
    | none => some kv
    | some best => if best.2 ≥ kv.2 then some best else some kv

/-- Deduplication of the raw input in first-occurrence order, the
deterministic stand-in for the source's `HashSet` iteration. -/
def dedup (input : List T) : List T :=
  input.foldl (fun acc e => if e ∈ acc then acc else acc ++ [e]) []

/-- Mirrors the first pass shared by both builders: register each alphabet
symbol as a singleton token with the next id and record it in
`straight_lookup`. -/
def seedLoop : List T → Tokenizer T → List (List T × Nat) → Nat →
    Tokenizer T × List (List T × Nat) × Nat
  | [], t, sl, c => (t, sl, c)
  | e :: rest, t, sl, c => seedLoop rest (t.register [e] c) (assocUpd [e] c sl) (c + 1)

/-- Mirrors the merge loop of `generate`: while the id counter is below the
target, count candidate spans, filter out spans recorded in
`straight_lookup`, pick the highest-frequency survivor (`none` models the
`unwrap` panic when no candidate remains) and register it with the next id.
The fuel is exactly `target - curr`. -/
def generateLoop (input : List T) :
    Nat → Tokenizer T → List (List T × Nat) → Nat → Option (Tokenizer T)
  | 0, t, _, _ => some t
  | fuel + 1, t, sl, curr =>
    match pairCounts t input with
    | none => none
    | some pairs =>
      match maxByVal (pairs.filter (fun kv => (assocGet kv.1 sl).isNone)) with
      | none => none
      | some best => generateLoop input fuel (t.register best.1 curr) sl (curr + 1)

/-- Mirrors `generate`: seed the tokenizer with the deduplicated alphabet,
then run the merge loop up to the target vocabulary size. -/
def generate (input : List T) (target : Nat) : Option (Tokenizer T) :=
  match seedLoop (dedup input) Tokenizer.default [] 0 with
  | (t, sl, c) => generateLoop input (target - c) t sl c

/-- Mirrors `entry(k).and_modify(|c| c += v).or_insert(v)` of the reduce
phase. -/
def bumpBy (k : List T) (v : Nat) : List (List T × Nat) → List (List T × Nat)
  | [] => [(k, v)]
  | (k', v') :: rest => if k' = k then (k', v' + v) :: rest else (k', v') :: bumpBy k v rest

/-- Mirrors the sequential reduce phase: sum the per-chunk counts per
distinct span key. -/
def consolidate (ms : List (List (List T × Nat))) : List (List T × Nat) :=
  ms.foldl (fun acc m => m.foldl (fun a kv => bumpBy kv.1 kv.2 a) acc) []

/-- Mirrors the data-parallel map phase `inputs.par_iter().map(..).collect()`:
the per-chunk counting loops run independently against the shared read-only
tokenizer and their results are collected in chunk order; any panic aborts
the whole build. -/
def mapChunks (t : Tokenizer T) : List (List T) → Option (List (List (List T × Nat)))
  | [] => some []
  | x :: rest =>
    match pairCountLoop t x (x.length + 1) [] 0 with
    | none => none
    | some m => (mapChunks t rest).map (fun ms => m :: ms)

/-- Mirrors the merge loop of `parallel_generate_with_base_vocabulary`:
map phase per chunk, reduce phase, then the same select-and-register step
as the sequential builder. -/
def parallelLoop (inputs : List (List T)) :
    Nat → Tokenizer T → List (List T × Nat) → Nat → Option (Tokenizer T)
  | 0, t, _, _ => some t
  | fuel + 1, t, sl, curr =>
    match mapChunks t inputs with
    | none => none
    | some rslts =>
      match maxByVal ((consolidate rslts).filter (fun kv => (assocGet kv.1 sl).isNone)) with
      | none => none
      | some best => parallelLoop inputs fuel (t.register best.1 curr) sl (curr + 1)

/-- Mirrors `parallel_generate_with_base_vocabulary`: seed from the
separately supplied base vocabulary, then run the chunked merge loop. -/
def parallelGenerateWithBaseVocabulary (inputs : List (List T)) (base : List T)
    (target : Nat) : Option (Tokenizer T) :=
  match seedLoop (dedup base) Tokenizer.default [] 0 with
  | (t, sl, c) => parallelLoop inputs (target - c) t sl c

/-- The sequence of maximal trie spans the encode walk of
`Tokenizer::tokenize` emits over the buffer, without the ids (each span is
one `Node::tokenize` dispatch). -/
def encodeSpans (t : Tokenizer T) (x : List T) : Nat → Nat → Option (List (List T))
  | 0, _ => none
  | fuel + 1, p =>
    if h : p < x.length then
      match assocGet (x.get ⟨p, h⟩) t.children with
      | none => none
      | some child =>
        (encodeSpans t x fuel (child.tokenize x p x.length).2).map
          (fun ks => sliceOf x p (child.tokenize x p x.length).2 :: ks)
    else some []

/-- The keys one counting round actually uses, expressed through the
encode walk: match the maximal span exactly as one `Node::tokenize`
dispatch would; when at least two symbols remain after it, the key is the
span extended by the single following raw symbol and the scan resumes
after that symbol, otherwise the key is the bare span. -/
def scanKeys (t : Tokenizer T) (x : List T) : Nat → Nat → Option (List (List T))
  | 0, _ => none
  | fuel + 1, p =>
    if h : p < x.length then
      match assocGet (x.get ⟨p, h⟩) t.children with
      | none => none
      | some child =>
        if (child.tokenize x p x.length).2 < x.length - 1 then
          (scanKeys t x fuel ((child.tokenize x p x.length).2 + 1)).map
            (fun ks => sliceOf x p ((child.tokenize x p x.length).2 + 1) :: ks)
        else
          (scanKeys t x fuel (child.tokenize x p x.length).2).map
            (fun ks => sliceOf x p (child.tokenize x p x.length).2 :: ks)
    else some []

/-- Modelled from the spec: the counter keys claimed in section 4.3 step
2b, namely the concatenation of each adjacent pair of emitted spans, with
the last span, which has no right neighbor, contributing itself. -/
def specPairKeys : List (List T) → List (List T)
  | [] => []
  | [s] => [s]
  | s1 :: s2 :: rest => (s1 ++ s2) :: specPairKeys (s2 :: rest)

/-- Modelled from the spec: one round of candidate counting as section
4.3 steps 2a-2b describe it, over the spans the encoder emits. -/
def specAdjacentPairCounts (t : Tokenizer T) (x : List T) : Option (List (List T × Nat)) :=
  (encodeSpans t x (x.length + 1) 0).map
    (fun spans => (specPairKeys spans).foldl (fun a k => bump k a) [])

/-- The tokenizer state entering round 1 of `generate [0, 1, 0, 1] 3`:
just the two singleton tokens of the deduplicated corpus. -/
def pairTrieAB : Tokenizer Nat :=
  ⟨[(0, .mk 0 0 []), (1, .mk 1 1 [])], [(0, [0]), (1, [1])]⟩

/-- The tokenizer produced by `generate [0] 1`. -/
def soloTok : Tokenizer Nat :=
  ⟨[(0, .mk 0 0 [])], [(0, [0])]⟩

/-- The tokenizer produced by `generate [0, 0, 0] 2`. -/
def soloPairTok : Tokenizer Nat :=
  ⟨[(0, .mk 0 0 [(0, .mk 0 1 [])])], [(0, [0]), (1, [0, 0])]⟩

/-! ### Association list lemmas -/

theorem assocGet_upd_self {A B : Type} [DecidableEq A] (k : A) (v : B) (l : List (A × B)) :
    assocGet k (assocUpd k v l) = some v := by
  induction l with
  | nil => simp [assocGet, assocUpd]
  | cons hd tl ih =>
    obtain ⟨k', v'⟩ := hd
    by_cases h : k' = k <;> simp [assocGet, assocUpd, h, ih]

theorem assocGet_upd_ne {A B : Type} [DecidableEq A] {k k' : A} (v : B) (l : List (A × B))
    (h : k' ≠ k) : assocGet k' (assocUpd k v l) = assocGet k' l := by
  induction l with
  | nil => simp [assocGet, assocUpd, Ne.symm h]
  | cons hd tl ih =>
    obtain ⟨ka, va⟩ := hd
    by_cases hk : ka = k
    · subst hk
      simp [assocGet, assocUpd, Ne.symm h]
    · simp [assocGet, assocUpd, hk, ih]

theorem assocGet_upd_isSome {A B : Type} [DecidableEq A] (k k' : A) (v : B) (l : List (A × B)) :
    (assocGet k' (assocUpd k v l)).isSome ↔ (assocGet k' l).isSome ∨ k' = k := by
  by_cases h : k' = k
  · subst h; simp [assocGet_upd_self]
  · simp [assocGet_upd_ne v l h, h]

theorem maxByVal_mem {l : List (List T × Nat)} {kv : List T × Nat}
    (h : maxByVal l = some kv) : kv ∈ l := by
  induction l generalizing kv with
  | nil => simp [maxByVal] at h
  | cons hd tl ih =>
    simp only [maxByVal] at h
    match hm : maxByVal tl with
    | none => rw [hm] at h; simp at h; simp [h]
    | some best =>
      rw [hm] at h
      by_cases hb : best.2 ≥ hd.2
      · simp [hb] at h; exact List.mem_cons_of_mem _ (h ▸ ih hm)
      · simp [hb] at h; simp [h]

theorem mem_keys_bump {k k' : List T} {l : List (List T × Nat)}
    (h : k' ∈ (bump k l).map Prod.fst) : k' ∈ l.map Prod.fst ∨ k' = k := by
  induction l with
  | nil => simp [bump] at h; simp [h]
  | cons hd tl ih =>
    obtain ⟨ka, va⟩ := hd
    by_cases hk : ka = k
    · simp [bump, hk] at h
      rcases h with h | h
      · right; rw [h]
      · left; simp [h]
    · simp [bump, hk] at h
      rcases h with h | h
      · left; simp [h]
      · rcases ih (by simpa using h) with h' | h'
        · left; simp at h' ⊢; exact Or.inr h'
        · right; exact h'

theorem mem_keys_bumpBy {k k' : List T} {v : Nat} {l : List (List T × Nat)}
    (h : k' ∈ (bumpBy k v l).map Prod.fst) : k' ∈ l.map Prod.fst ∨ k' = k := by
  induction l with
  | nil => simp [bumpBy] at h; simp [h]
  | cons hd tl ih =>
    obtain ⟨ka, va⟩ := hd
    by_cases hk : ka = k
    · simp [bumpBy, hk] at h
      rcases h with h | h
      · right; rw [h]
      · left; simp [h]
    · simp [bumpBy, hk] at h
      rcases h with h | h
      · left; simp [h]
      · rcases ih (by simpa using h) with h' | h'
        · left; simp at h' ⊢; exact Or.inr h'
        · right; exact h'

/-! ### Slice lemmas -/

theorem sliceOf_same (x : List T) (a : Nat) : sliceOf x a a = [] := by
  simp [sliceOf]

theorem sliceOf_cons (x : List T) {a b : Nat} (ha : a < x.length) (hb : a + 1 ≤ b) :
    sliceOf x a b = x.get ⟨a, ha⟩ :: sliceOf x (a + 1) b := by
  unfold sliceOf
  rw [List.drop_eq_get_cons ha]
  have : b - a = (b - (a + 1)) + 1 := by omega
  rw [this, List.take_succ_cons]

theorem sliceOf_append_drop (x : List T) {a b : Nat} (hab : a ≤ b) :
    sliceOf x a b ++ x.drop b = x.drop a := by
  unfold sliceOf
  have h1 : x.drop b = (x.drop a).drop (b - a) := by
    rw [List.drop_drop]; congr 1; omega
  rw [h1, List.take_append_drop]

theorem mem_sliceOf {x : List T} {c : T} {a b : Nat} (h : c ∈ sliceOf x a b) : c ∈ x := by
  unfold sliceOf at h
  exact List.mem_of_mem_drop (List.mem_of_mem_take h)

theorem get_mem_sliceOf (x : List T) {a b i : Nat} (hai : a ≤ i) (hib : i < b)
    (hi : i < x.length) : x.get ⟨i, hi⟩ ∈ sliceOf x a b := by
  have h1 : (sliceOf x a b)[i - a]? = x[i]? := by
    unfold sliceOf
    rw [List.getElem?_take]
    have hcase : i - a < b - a := by omega
    simp only [hcase, if_pos, List.getElem?_drop]
    congr 1
    omega
  have h2 : x[i]? = some (x.get ⟨i, hi⟩) := by
    simp [List.getElem?_eq_getElem hi]
  rw [h2] at h1
  exact List.getElem?_mem h1

theorem sliceOf_snoc (x : List T) {a b : Nat} (hab : a ≤ b) (hb : b < x.length) :
    sliceOf x a (b + 1) = sliceOf x a b ++ [x.get ⟨b, hb⟩] := by
  unfold sliceOf
  have h1 : b + 1 - a = (b - a) + 1 := by omega
  rw [h1, List.take_succ]
  congr 1
  have h2 : (x.drop a)[b - a]? = x[b]? := by
    rw [List.getElem?_drop]
    congr 1
    omega
  rw [h2, List.getElem?_eq_getElem hb]
  rfl

/-! ### Walk lemmas -/

theorem Node.tokenize_snd_ge (x : List T) :
    ∀ (fuel : Nat) (n : Node T) (p : Nat), p + 1 ≤ (n.tokenize x p fuel).2 := by
  intro fuel
  induction fuel with
  | zero => intro n p; simp [Node.tokenize]
  | succ fuel ih =>
    intro n p
    simp only [Node.tokenize]
    split
    · split
      · exact le_trans (by omega) (ih _ (p + 1))
      · simp
    · simp

theorem Node.tokenize_snd_le (x : List T) :
    ∀ (fuel : Nat) (n : Node T) (p : Nat), p < x.length → (n.tokenize x p fuel).2 ≤ x.length := by
  intro fuel
  induction fuel with
  | zero => intro n p hp; simp [Node.tokenize]; omega
  | succ fuel ih =>
    intro n p hp
    simp only [Node.tokenize]
    split
    · split
      · exact ih _ (p + 1) (by omega)
      · omega
    · omega

theorem Node.tokenizeNoWrite_eq (x : List T) :
    ∀ (fuel : Nat) (n : Node T) (p : Nat),
      n.tokenizeNoWrite x p fuel = (n.tokenize x p fuel).2 := by
  intro fuel
  induction fuel with
  | zero => intro n p; simp [Node.tokenize, Node.tokenizeNoWrite]
  | succ fuel ih =>
    intro n p
    simp only [Node.tokenize, Node.tokenizeNoWrite]
    split
    · split <;> simp [ih]
    · simp

/-! ### Reachability in the trie -/

/-- Reachability below a node: from `n`, following the child keys listed in
`rel`, one arrives at `m`. -/
inductive NIn : Node T → List T → Node T → Prop where
  | refl (n : Node T) : NIn n [] n
  | step {n c m : Node T} {s : T} {rel : List T} :
      assocGet s n.children = some c → NIn c rel m → NIn n (s :: rel) m

/-- The node `m` sits in the trie of `t` at the (nonempty) key path `pfx`. -/
def IsNodeAt (t : Tokenizer T) (pfx : List T) (m : Node T) : Prop :=
  ∃ s rel n0, pfx = s :: rel ∧ assocGet s t.children = some n0 ∧ NIn n0 rel m

/-- The two shapes a counted span can have relative to the current trie:
either it is itself a full trie path, or it is a trie path extended by one
symbol for which the path's end node has no child. -/
def Shape (t : Tokenizer T) (k : List T) : Prop :=
  (∃ m, IsNodeAt t k m) ∨
  (∃ u c m, k = u ++ [c] ∧ IsNodeAt t u m ∧ assocGet c m.children = none)

/-- The greedy walk from node `n` at pointer `p` traverses exactly the trie
path given by the consumed slice, lands on a node `m`, emits the id stored
at `m`, and stops in-bounds only because `m` has no child for the next
symbol.  The fuel only needs to cover the remaining buffer. -/
theorem Node.tokenize_nin (x : List T) :
    ∀ (fuel : Nat) (n : Node T) (p : Nat), x.length ≤ p + 1 + fuel →
      ∃ m : Node T,
        NIn n (sliceOf x (p + 1) (n.tokenize x p fuel).2) m ∧
        (n.tokenize x p fuel).1 = m.tokenValue ∧
        ∀ c : T, x[(n.tokenize x p fuel).2]? = some c → assocGet c m.children = none := by
  intro fuel
  induction fuel with
  | zero =>
    intro n p hlen
    refine ⟨n, ?_, rfl, ?_⟩
    · simp [Node.tokenize, sliceOf_same]
      exact NIn.refl n
    · intro c hc
      rw [List.getElem?_eq_none (by simp [Node.tokenize]; omega)] at hc
      exact absurd hc (by simp)
  | succ fuel ih =>
    intro n p hlen
    simp only [Node.tokenize]
    split
    · rename_i h
      split
      · rename_i c hch
        obtain ⟨m, hm1, hm2, hm3⟩ := ih c (p + 1) (by omega)
        refine ⟨m, ?_, hm2, hm3⟩
        have hge : p + 1 + 1 ≤ (c.tokenize x (p + 1) fuel).2 := Node.tokenize_snd_ge x fuel c (p + 1)
        rw [sliceOf_cons x h (by omega)]
        exact NIn.step hch hm1
      · rename_i hch
        refine ⟨n, ?_, rfl, ?_⟩
        · simp [sliceOf_same]; exact NIn.refl n
        · intro c hc
          rw [List.getElem?_eq_getElem h] at hc
          cases hc
          exact hch
    · rename_i h
      refine ⟨n, ?_, rfl, ?_⟩
      · simp [sliceOf_same]; exact NIn.refl n
      · intro c hc
        rw [List.getElem?_eq_none (by omega)] at hc
        exact absurd hc (by simp)

/-! ### Register characterization -/

/-- Registering over an existing node path only retargets the terminal
node's id: every node of the result is either the retargeted node at the
registered path, or keeps the path and id it had before. -/
theorem Node.register_nin_overwrite :
    ∀ (rel : List T) (n m : Node T) (b : T) (tv : Nat), NIn n rel m →
      ∀ (rel' : List T) (m' : Node T), NIn (n.register (b :: rel) tv) rel' m' →
        (rel' = rel ∧ m'.tokenValue = tv) ∨
        (∃ m0, NIn n rel' m0 ∧ m'.tokenValue = m0.tokenValue) := by
  intro rel
  induction rel with
  | nil =>
    intro n m b tv _ rel' m' h'
    simp only [Node.register] at h'
    cases h' with
    | refl => left; exact ⟨rfl, rfl⟩
    | step hch hnin =>
      right
      rename_i c s rel0
      exact ⟨m', NIn.step hch hnin, rfl⟩
  | cons r rs ih =>
    intro n m b tv hnm rel' m' h'
    cases hnm with
    | step hc0 hnin0 =>
      rename_i c0
      simp only [Node.register, hc0] at h'
      cases h' with
      | refl => right; exact ⟨n, NIn.refl n, rfl⟩
      | step hch hnin =>
        rename_i c s rel0
        simp only [Node.children] at hch
        by_cases hs : s = r
        · subst hs
          rw [assocGet_upd_self] at hch
          cases hch
          rcases ih c0 m s tv hnin0 rel0 m' hnin with ⟨he, htv⟩ | ⟨m0, hm0, htv⟩
          · left; exact ⟨by rw [he], htv⟩
          · right; exact ⟨m0, NIn.step hc0 hm0, htv⟩
        · rw [assocGet_upd_ne _ _ hs] at hch
          right
          exact ⟨m', NIn.step hch hnin, rfl⟩

/-- Registering a path extended by one fresh symbol adds exactly one leaf
carrying the new id; every other node keeps its path and id. -/
theorem Node.register_nin_extend :
    ∀ (rel : List T) (n m : Node T) (b ce : T) (tv : Nat), NIn n rel m →
      assocGet ce m.children = none →
      ∀ (rel' : List T) (m' : Node T), NIn (n.register (b :: (rel ++ [ce])) tv) rel' m' →
        (rel' = rel ++ [ce] ∧ m'.tokenValue = tv) ∨
        (∃ m0, NIn n rel' m0 ∧ m'.tokenValue = m0.tokenValue) := by
  intro rel
  induction rel with
  | nil =>
    intro n m b ce tv hnm hnone rel' m' h'
    cases hnm
    simp only [List.nil_append, Node.register, hnone] at h'
    cases h' with
    | refl => right; exact ⟨n, NIn.refl n, rfl⟩
    | step hch hnin =>
      rename_i c s rel0
      simp only [Node.children] at hch
      by_cases hs : s = ce
      · subst hs
        rw [assocGet_upd_self] at hch
        cases hch
        cases hnin with
        | refl => left; exact ⟨rfl, rfl⟩
        | step hch2 _ =>
          simp [Node.new, Node.children, assocGet] at hch2
      · rw [assocGet_upd_ne _ _ hs] at hch
        right
        exact ⟨m', NIn.step hch hnin, rfl⟩
  | cons r rs ih =>
    intro n m b ce tv hnm hnone rel' m' h'
    cases hnm with
    | step hc0 hnin0 =>
      rename_i c0
      simp only [List.cons_append, Node.register, hc0] at h'
      cases h' with
      | refl => right; exact ⟨n, NIn.refl n, rfl⟩
      | step hch hnin =>
        rename_i c s rel0
        simp only [Node.children] at hch
        by_cases hs : s = r
        · subst hs
          rw [assocGet_upd_self] at hch
          cases hch
          rcases ih c0 m s ce tv hnin0 hnone rel0 m' hnin with ⟨he, htv⟩ | ⟨m0, hm0, htv⟩
          · left; exact ⟨by rw [he, List.cons_append], htv⟩
          · right; exact ⟨m0, NIn.step hc0 hm0, htv⟩
        · rw [assocGet_upd_ne _ _ hs] at hch
          right
          exact ⟨m', NIn.step hch hnin, rfl⟩

theorem Tokenizer.register_children_root_some {t : Tokenizer T} {s : T} {rest : List T}
    {n0 : Node T} (hroot : assocGet s t.children = some n0) (tv : Nat) :
    (t.register (s :: rest) tv).children = assocUpd s (n0.register (s :: rest) tv) t.children := by
  simp [Tokenizer.register, hroot]

theorem Tokenizer.register_lookup_root_some {t : Tokenizer T} {s : T} {rest : List T}
    {n0 : Node T} (hroot : assocGet s t.children = some n0) (tv : Nat) :
    (t.register (s :: rest) tv).lookup = assocUpd tv (s :: rest) t.lookup := by
  simp [Tokenizer.register, hroot]

theorem Shape.head {t : Tokenizer T} {w : List T} (h : Shape t w) :
    ∃ s rest n0, w = s :: rest ∧ assocGet s t.children = some n0 := by
  rcases h with ⟨m, s, rel, n0, hw, hroot, _⟩ | ⟨u, ce, m, hw, ⟨s, rel, n0, hu, hroot, _⟩, _⟩
  · exact ⟨s, rel, n0, hw, hroot⟩
  · exact ⟨s, rel ++ [ce], n0, by rw [hw, hu]; rfl, hroot⟩

/-- Registering a span of either admissible shape only adds the span at the
new id or retargets the span's terminal node: every node of the resulting
trie either sits at the registered path and carries the new id, or keeps
the path and id it had before registration. -/
theorem register_isNodeAt_of_shape {t : Tokenizer T} {w : List T} {tv : Nat}
    (hsh : Shape t w) :
    ∀ (pfx : List T) (m' : Node T), IsNodeAt (t.register w tv) pfx m' →
      (pfx = w ∧ m'.tokenValue = tv) ∨
      (∃ m0, IsNodeAt t pfx m0 ∧ m'.tokenValue = m0.tokenValue) := by
  intro pfx m' h'
  obtain ⟨s', rel', n0', hpfx, hroot', hnin'⟩ := h'
  rcases hsh with ⟨m, s, rel, n0, hw, hroot, hnin⟩ | ⟨u, ce, m, hw, ⟨s, rel, n0, hu, hroot, hnin⟩, hnone⟩
  · rw [hw] at hroot' ⊢
    rw [Tokenizer.register_children_root_some hroot tv] at hroot'
    by_cases hs : s' = s
    · subst hs
      rw [assocGet_upd_self] at hroot'
      cases hroot'
      rcases Node.register_nin_overwrite rel n0 m s' tv hnin rel' m' hnin' with
        ⟨he, htv⟩ | ⟨m0, hm0, htv⟩
      · left; exact ⟨by rw [hpfx, he], htv⟩
      · right; exact ⟨m0, ⟨s', rel', n0, hpfx, hroot, hm0⟩, htv⟩
    · rw [assocGet_upd_ne _ _ hs] at hroot'
      right; exact ⟨m', ⟨s', rel', n0', hpfx, hroot', hnin'⟩, rfl⟩
  · have hw' : w = s :: (rel ++ [ce]) := by rw [hw, hu]; rfl
    rw [hw'] at hroot' ⊢
    rw [Tokenizer.register_children_root_some hroot tv] at hroot'
    by_cases hs : s' = s
    · subst hs
      rw [assocGet_upd_self] at hroot'
      cases hroot'
      rcases Node.register_nin_extend rel n0 m s' ce tv hnin hnone rel' m' hnin' with
        ⟨he, htv⟩ | ⟨m0, hm0, htv⟩
      · left; exact ⟨by rw [hpfx, he], htv⟩
      · right; exact ⟨m0, ⟨s', rel', n0, hpfx, hroot, hm0⟩, htv⟩
    · rw [assocGet_upd_ne _ _ hs] at hroot'
      right; exact ⟨m', ⟨s', rel', n0', hpfx, hroot', hnin'⟩, rfl⟩

/-- Registering a span of admissible shape does not change which symbols
have root-level entries. -/
theorem register_roots_of_shape {t : Tokenizer T} {w : List T} {tv : Nat}
    (hsh : Shape t w) (s' : T) :
    (assocGet s' (t.register w tv).children).isSome ↔ (assocGet s' t.children).isSome := by
  obtain ⟨s, rest, n0, hw, hroot⟩ := hsh.head
  rw [hw, Tokenizer.register_children_root_some hroot tv, assocGet_upd_isSome]
  constructor
  · rintro (h | h)
    · exact h
    · rw [h, hroot]; rfl
  · exact Or.inl

/-- The lookup after registering a span of admissible shape is exactly the
previous lookup updated at the new id. -/
theorem register_lookup_of_shape {t : Tokenizer T} {w : List T} {tv : Nat}
    (hsh : Shape t w) :
    (t.register w tv).lookup = assocUpd tv w t.lookup := by
  obtain ⟨s, rest, n0, hw, hroot⟩ := hsh.head
  rw [hw, Tokenizer.register_lookup_root_some hroot tv]

/-! ### The core tokenizer invariant -/

/-- The invariant maintained by both builders: every node in the trie
carries a token id below the id counter whose lookup entry is exactly the
node's key path from the root, and the lookup contains exactly the ids
`0..curr-1`. -/
def Inv (t : Tokenizer T) (curr : Nat) : Prop :=
  (∀ (pfx : List T) (m : Node T), IsNodeAt t pfx m →
    assocGet m.tokenValue t.lookup = some pfx ∧ m.tokenValue < curr) ∧
  (∀ i : Nat, (assocGet i t.lookup).isSome ↔ i < curr)

theorem Inv.register {t : Tokenizer T} {curr : Nat} {w : List T}
    (hinv : Inv t curr) (hsh : Shape t w) :
    Inv (t.register w curr) (curr + 1) := by
  have hlk : (t.register w curr).lookup = assocUpd curr w t.lookup :=
    register_lookup_of_shape hsh
  constructor
  · intro pfx m' h'
    rcases register_isNodeAt_of_shape hsh pfx m' h' with ⟨hpfx, htv⟩ | ⟨m0, hm0, htv⟩
    · rw [hlk, htv, hpfx, assocGet_upd_self]
      exact ⟨rfl, by omega⟩
    · obtain ⟨hlook, hlt⟩ := hinv.1 pfx m0 hm0
      rw [hlk, htv, assocGet_upd_ne _ _ (by omega)]
      exact ⟨hlook, by omega⟩
  · intro i
    rw [hlk, assocGet_upd_isSome, hinv.2 i]
    omega

/-! ### Seeding with singleton tokens -/

theorem assocGet_upd_upd {A B : Type} [DecidableEq A] (k : A) (v : B) (l : List (A × B))
    (i : A) : assocGet i (assocUpd k v (assocUpd k v l)) = assocGet i (assocUpd k v l) := by
  by_cases h : i = k
  · subst h; rw [assocGet_upd_self, assocGet_upd_self]
  · rw [assocGet_upd_ne _ _ h, assocGet_upd_ne _ _ h]

theorem register_singleton_children {t : Tokenizer T} {e : T} {tv : Nat}
    (hroot : assocGet e t.children = none) :
    (t.register [e] tv).children = assocUpd e (Node.mk e tv []) t.children := by
  simp [Tokenizer.register, hroot, Node.new]

theorem register_singleton_lookup {t : Tokenizer T} {e : T} {tv : Nat}
    (hroot : assocGet e t.children = none) (i : Nat) :
    assocGet i (t.register [e] tv).lookup = assocGet i (assocUpd tv [e] t.lookup) := by
  simp only [Tokenizer.register, hroot, Node.new]
  exact assocGet_upd_upd tv [e] t.lookup i

theorem register_singleton_isNodeAt {t : Tokenizer T} {e : T} {tv : Nat}
    (hroot : assocGet e t.children = none) :
    ∀ (pfx : List T) (m' : Node T), IsNodeAt (t.register [e] tv) pfx m' →
      (pfx = [e] ∧ m'.tokenValue = tv) ∨
      (∃ m0, IsNodeAt t pfx m0 ∧ m'.tokenValue = m0.tokenValue) := by
  intro pfx m' h'
  obtain ⟨s', rel', n0', hpfx, hroot', hnin'⟩ := h'
  rw [register_singleton_children hroot] at hroot'
  by_cases hs : s' = e
  · subst hs
    rw [assocGet_upd_self] at hroot'
    cases hroot'
    cases hnin' with
    | refl => left; exact ⟨by rw [hpfx], rfl⟩
    | step hch _ => simp [Node.children, assocGet] at hch
  · rw [assocGet_upd_ne _ _ hs] at hroot'
    right; exact ⟨m', ⟨s', rel', n0', hpfx, hroot', hnin'⟩, rfl⟩

theorem Inv.registerSingleton {t : Tokenizer T} {curr : Nat} {e : T}
    (hinv : Inv t curr) (hroot : assocGet e t.children = none) :
    Inv (t.register [e] curr) (curr + 1) := by
  constructor
  · intro pfx m' h'
    rcases register_singleton_isNodeAt hroot pfx m' h' with ⟨hpfx, htv⟩ | ⟨m0, hm0, htv⟩
    · rw [register_singleton_lookup hroot, htv, hpfx, assocGet_upd_self]
      exact ⟨rfl, by omega⟩
    · obtain ⟨hlook, hlt⟩ := hinv.1 pfx m0 hm0
      rw [register_singleton_lookup hroot, htv, assocGet_upd_ne _ _ (by omega)]
      exact ⟨hlook, by omega⟩
  · intro i
    rw [register_singleton_lookup hroot, assocGet_upd_isSome, hinv.2 i]
    omega

/-- Seeding invariant: starting from a state whose roots are exactly `A0`,
registering the (fresh, duplicate-free) symbols of `al` one by one yields a
state satisfying the invariant at the advanced counter, whose roots are
exactly `A0 ++ al`, all of whose node paths use symbols of `A0 ++ al`, and
whose final counter advanced by `al.length`. -/
theorem seedLoop_inv :
    ∀ (al : List T) (t : Tokenizer T) (sl : List (List T × Nat)) (c : Nat) (A0 : List T),
      Inv t c →
      (∀ s, (assocGet s t.children).isSome ↔ s ∈ A0) →
      (∀ (pfx : List T) (m : Node T), IsNodeAt t pfx m → ∀ s ∈ pfx, s ∈ A0) →
      (A0 ++ al).Nodup →
      Inv (seedLoop al t sl c).1 (c + al.length) ∧
      (∀ s, (assocGet s (seedLoop al t sl c).1.children).isSome ↔ s ∈ A0 ++ al) ∧
      (∀ (pfx : List T) (m : Node T), IsNodeAt (seedLoop al t sl c).1 pfx m →
        ∀ s ∈ pfx, s ∈ A0 ++ al) ∧
      (seedLoop al t sl c).2.2 = c + al.length := by
  intro al
  induction al with
  | nil =>
    intro t sl c A0 hinv hroots hsub _
    constructor
    · simpa [seedLoop] using hinv
    constructor
    · intro s
      simpa [seedLoop] using hroots s
    constructor
    · intro pfx m hm s hs
      have := hsub pfx m (by simpa [seedLoop] using hm) s hs
      simpa using this
    · simp [seedLoop]
  | cons e rest ih =>
    intro t sl c A0 hinv hroots hsub hnodup
    have hnotin : e ∉ A0 := by
      intro hmem
      exact List.disjoint_of_nodup_append hnodup hmem (List.mem_cons_self e rest)
    have hfresh : assocGet e t.children = none := by
      have h1 : ¬ (assocGet e t.children).isSome := by rw [hroots]; exact hnotin
      exact Option.not_isSome_iff_eq_none.mp h1
    have hinv' : Inv (t.register [e] c) (c + 1) := hinv.registerSingleton hfresh
    have hroots' : ∀ s, (assocGet s (t.register [e] c).children).isSome ↔ s ∈ A0 ++ [e] := by
      intro s
      rw [register_singleton_children hfresh, assocGet_upd_isSome, hroots]
      simp
    have hsub' : ∀ (pfx : List T) (m : Node T), IsNodeAt (t.register [e] c) pfx m →
        ∀ s ∈ pfx, s ∈ A0 ++ [e] := by
      intro pfx m hm s hs
      rcases register_singleton_isNodeAt hfresh pfx m hm with ⟨hpfx, _⟩ | ⟨m0, hm0, _⟩
      · rw [hpfx] at hs
        simp at hs
        simp [hs]
      · have := hsub pfx m0 hm0 s hs
        simp [this]
    have hnodup' : ((A0 ++ [e]) ++ rest).Nodup := by
      have : (A0 ++ [e]) ++ rest = A0 ++ (e :: rest) := by simp
      rw [this]
      exact hnodup
    obtain ⟨r1, r2, r3, r4⟩ := ih (t.register [e] c) (assocUpd [e] c sl) (c + 1) (A0 ++ [e])
      hinv' hroots' hsub' hnodup'
    refine ⟨?_, ?_, ?_, ?_⟩
    · simpa [seedLoop, Nat.add_assoc, Nat.add_comm 1 rest.length] using r1
    · intro s
      have := r2 s
      simp only [seedLoop]
      rw [this]
      simp
    · intro pfx m hm s hs
      have := r3 pfx m (by simpa [seedLoop] using hm) s hs
      simpa using this
    · simp only [seedLoop]
      rw [r4]
      simp [Nat.add_assoc, Nat.add_comm 1 rest.length]

/-! ### Shapes of counted spans -/

/-- Every key in the output of a counting round is either a key already in
the accumulator, or a span of admissible shape all of whose symbols occur
in the scanned buffer. -/
theorem pairCountLoop_keys (t : Tokenizer T) (x : List T) :
    ∀ (fuel : Nat) (pairs : List (List T × Nat)) (p : Nat) (r : List (List T × Nat)),
      pairCountLoop t x fuel pairs p = some r →
      ∀ k ∈ r.map Prod.fst, k ∈ pairs.map Prod.fst ∨
        (Shape t k ∧ ∀ s ∈ k, s ∈ x) := by
  intro fuel
  induction fuel with
  | zero => intro pairs p r h; simp [pairCountLoop] at h
  | succ fuel ih =>
    intro pairs p r h k hk
    simp only [pairCountLoop] at h
    by_cases hp : p < x.length
    · rw [if_pos hp] at h
      match hch : assocGet (x.get ⟨p, hp⟩) t.children with
      | none =>
        have hitem : t.tokenizeItemNoWrite x p = none := by
          unfold Tokenizer.tokenizeItemNoWrite
          rw [dif_pos hp, hch]
        simp only [hitem] at h
        exact absurd h (by simp)
      | some child =>
        have hitem : t.tokenizeItemNoWrite x p =
            some (child.tokenizeNoWrite x p x.length) := by
          unfold Tokenizer.tokenizeItemNoWrite
          rw [dif_pos hp, hch]
        simp only [hitem] at h
        set q := child.tokenizeNoWrite x p x.length with hq
        have hqeq : q = (child.tokenize x p x.length).2 := by
          rw [hq, Node.tokenizeNoWrite_eq]
        have hqge : p + 1 ≤ q := by rw [hqeq]; exact Node.tokenize_snd_ge x _ child p
        have hqle : q ≤ x.length := by rw [hqeq]; exact Node.tokenize_snd_le x _ child p hp
        obtain ⟨m, hm1, _, hm3⟩ := Node.tokenize_nin x x.length child p (by omega)
        rw [← hqeq] at hm1 hm3
        have hmAt : IsNodeAt t (sliceOf x p q) m := by
          refine ⟨x.get ⟨p, hp⟩, sliceOf x (p + 1) q, child, ?_, hch, hm1⟩
          rw [sliceOf_cons x hp hqge]
        have hkey : ∀ (key : List T), (Shape t key ∧ ∀ s ∈ key, s ∈ x) → ∀ pairs' next,
            pairCountLoop t x fuel (bump key pairs') next = some r →
            k ∈ pairs'.map Prod.fst ∨ (Shape t k ∧ ∀ s ∈ k, s ∈ x) := by
          intro key hkeyok pairs' next hrec
          rcases ih (bump key pairs') next r hrec k hk with hmem | hok
          · rcases mem_keys_bump hmem with hold | hnew
            · exact Or.inl hold
            · exact Or.inr (by rw [hnew]; exact hkeyok)
          · exact Or.inr hok
        by_cases hcase : q < x.length - 1
        · rw [if_pos hcase] at h
          have hqlt : q < x.length := by omega
          have hsnoc : sliceOf x p (q + 1) = sliceOf x p q ++ [x.get ⟨q, hqlt⟩] :=
            sliceOf_snoc x (by omega) hqlt
          refine hkey (sliceOf x p (q + 1)) ⟨?_, ?_⟩ pairs (q + 1) h
          · right
            refine ⟨sliceOf x p q, x.get ⟨q, hqlt⟩, m, hsnoc, hmAt, ?_⟩
            exact hm3 _ (List.getElem?_eq_getElem hqlt)
          · intro s hs
            exact mem_sliceOf hs
        · rw [if_neg hcase] at h
          refine hkey (sliceOf x p q) ⟨Or.inl ⟨m, hmAt⟩, ?_⟩ pairs q h
          intro s hs
          exact mem_sliceOf hs
    · rw [if_neg hp] at h
      cases h
      exact Or.inl hk

/-! ### Dedup lemmas -/

theorem mem_dedup_aux :
    ∀ (l acc : List T) (s : T),
      (s ∈ l.foldl (fun acc e => if e ∈ acc then acc else acc ++ [e]) acc) ↔
        s ∈ acc ∨ s ∈ l := by
  intro l
  induction l with
  | nil => intro acc s; simp
  | cons e rest ih =>
    intro acc s
    simp only [List.foldl_cons]
    rw [ih]
    by_cases he : e ∈ acc
    · simp only [if_pos he, List.mem_cons]
      constructor
      · rintro (h | h)
        · exact Or.inl h
        · exact Or.inr (Or.inr h)
      · rintro (h | h | h)
        · exact Or.inl h
        · exact Or.inl (h ▸ he)
        · exact Or.inr h
    · simp only [if_neg he, List.mem_append, List.mem_singleton, List.mem_cons]
      tauto

theorem mem_dedup (input : List T) (s : T) : s ∈ dedup input ↔ s ∈ input := by
  unfold dedup
  rw [mem_dedup_aux]
  simp

theorem nodup_dedup_aux :
    ∀ (l acc : List T), acc.Nodup →
      (l.foldl (fun acc e => if e ∈ acc then acc else acc ++ [e]) acc).Nodup := by
  intro l
  induction l with
  | nil => intro acc h; simpa using h
  | cons e rest ih =>
    intro acc h
    simp only [List.foldl_cons]
    apply ih
    by_cases he : e ∈ acc
    · simpa [he] using h
    · rw [if_neg he]
      simp [List.nodup_append, h, he]

theorem nodup_dedup (input : List T) : (dedup input).Nodup :=
  nodup_dedup_aux input [] (by simp)

theorem dedup_foldl_of_nodup :
    ∀ (l acc : List T), (acc ++ l).Nodup →
      l.foldl (fun acc e => if e ∈ acc then acc else acc ++ [e]) acc = acc ++ l := by
  intro l
  induction l with
  | nil => intro acc _; simp
  | cons e rest ih =>
    intro acc h
    have he : e ∉ acc := by
      intro hmem
      exact List.disjoint_of_nodup_append h hmem (List.mem_cons_self e rest)
    simp only [List.foldl_cons, if_neg he]
    have h' : ((acc ++ [e]) ++ rest).Nodup := by
      have : (acc ++ [e]) ++ rest = acc ++ e :: rest := by simp
      rw [this]
      exact h
    rw [ih (acc ++ [e]) h']
    simp

theorem dedup_idem (l : List T) : dedup (dedup l) = dedup l := by
  conv_lhs => rw [dedup]
  rw [dedup_foldl_of_nodup (dedup l) [] (by simpa using nodup_dedup l)]
  simp

/-! ### Builder loop invariants -/

theorem Inv_default : Inv (Tokenizer.default : Tokenizer T) 0 := by
  constructor
  · intro pfx m hm
    obtain ⟨s, rel, n0, _, hroot, _⟩ := hm
    simp [Tokenizer.default, assocGet] at hroot
  · intro i
    simp [Tokenizer.default, assocGet]

/-- The merge loop of the sequential builder preserves the invariant and
the root/alphabet correspondence: on success the counter advances by the
whole fuel. -/
theorem generateLoop_inv (input A : List T) (hin : ∀ s ∈ input, s ∈ A) :
    ∀ (fuel : Nat) (t : Tokenizer T) (sl : List (List T × Nat)) (curr : Nat) (t' : Tokenizer T),
      Inv t curr →
      (∀ s, (assocGet s t.children).isSome ↔ s ∈ A) →
      (∀ (pfx : List T) (m : Node T), IsNodeAt t pfx m → ∀ s ∈ pfx, s ∈ A) →
      generateLoop input fuel t sl curr = some t' →
      Inv t' (curr + fuel) ∧
      (∀ s, (assocGet s t'.children).isSome ↔ s ∈ A) ∧
      (∀ (pfx : List T) (m : Node T), IsNodeAt t' pfx m → ∀ s ∈ pfx, s ∈ A) := by
  intro fuel
  induction fuel with
  | zero =>
    intro t sl curr t' hinv hroots hsub h
    simp only [generateLoop] at h
    cases h
    exact ⟨hinv, hroots, hsub⟩
  | succ fuel ih =>
    intro t sl curr t' hinv hroots hsub h
    simp only [generateLoop] at h
    match hpc : pairCounts t input with
    | none => rw [hpc] at h; simp at h
    | some pairs =>
      simp only [hpc] at h
      match hmx : maxByVal (pairs.filter (fun kv => (assocGet kv.1 sl).isNone)) with
      | none => rw [hmx] at h; simp at h
      | some best =>
        simp only [hmx] at h
        have hbm : best.1 ∈ pairs.map Prod.fst :=
          List.mem_map_of_mem Prod.fst (List.mem_of_mem_filter (maxByVal_mem hmx))
        rcases pairCountLoop_keys t input (input.length + 1) [] 0 pairs hpc best.1 hbm with
          hfalse | ⟨hshape, hsubx⟩
        · simp at hfalse
        · have hinv' : Inv (t.register best.1 curr) (curr + 1) := hinv.register hshape
          have hroots' : ∀ s, (assocGet s (t.register best.1 curr).children).isSome ↔ s ∈ A := by
            intro s
            rw [register_roots_of_shape hshape]
            exact hroots s
          have hsub' : ∀ (pfx : List T) (m : Node T), IsNodeAt (t.register best.1 curr) pfx m →
              ∀ s ∈ pfx, s ∈ A := by
            intro pfx m hm s hs
            rcases register_isNodeAt_of_shape hshape pfx m hm with ⟨hpfx, _⟩ | ⟨m0, hm0, _⟩
            · exact hin s (hsubx s (hpfx ▸ hs))
            · exact hsub pfx m0 hm0 s hs
          obtain ⟨r1, r2, r3⟩ := ih (t.register best.1 curr) sl (curr + 1) t' hinv' hroots' hsub' h
          refine ⟨?_, r2, r3⟩
          have : curr + 1 + fuel = curr + (fuel + 1) := by omega
          rw [this] at r1
          exact r1

theorem mapChunks_mem {t : Tokenizer T} :
    ∀ (chunks : List (List T)) (rslts : List (List (List T × Nat))),
      mapChunks t chunks = some rslts →
      ∀ m ∈ rslts, ∃ ch, ch ∈ chunks ∧ pairCountLoop t ch (ch.length + 1) [] 0 = some m := by
  intro chunks
  induction chunks with
  | nil =>
    intro rslts h m hm
    simp only [mapChunks] at h
    cases h
    simp at hm
  | cons x rest ih =>
    intro rslts h m hm
    simp only [mapChunks] at h
    match hpc : pairCountLoop t x (x.length + 1) [] 0 with
    | none => rw [hpc] at h; simp at h
    | some m0 =>
      simp only [hpc] at h
      match hrec : mapChunks t rest with
      | none => rw [hrec] at h; simp at h
      | some ms =>
        simp only [hrec, Option.map_some] at h
        cases h
        rcases List.mem_cons.mp hm with hm0 | hms
        · exact ⟨x, List.mem_cons_self x rest, hm0 ▸ hpc⟩
        · obtain ⟨ch, hch, hpc'⟩ := ih ms hrec m hms
          exact ⟨ch, List.mem_cons_of_mem x hch, hpc'⟩

theorem foldl_bumpBy_keys :
    ∀ (m : List (List T × Nat)) (acc : List (List T × Nat)) (k : List T),
      k ∈ (m.foldl (fun a kv => bumpBy kv.1 kv.2 a) acc).map Prod.fst →
      k ∈ acc.map Prod.fst ∨ k ∈ m.map Prod.fst := by
  intro m
  induction m with
  | nil => intro acc k h; exact Or.inl (by simpa using h)
  | cons kv rest ih =>
    intro acc k h
    simp only [List.foldl_cons] at h
    rcases ih (bumpBy kv.1 kv.2 acc) k h with hacc | hrest
    · rcases mem_keys_bumpBy hacc with hold | hnew
      · exact Or.inl hold
      · right; simp [hnew]
    · right; simp [hrest]

theorem consolidate_keys :
    ∀ (ms : List (List (List T × Nat))) (k : List T),
      k ∈ (consolidate ms).map Prod.fst → ∃ m, m ∈ ms ∧ k ∈ m.map Prod.fst := by
  have haux : ∀ (ms : List (List (List T × Nat))) (acc : List (List T × Nat)) (k : List T),
      k ∈ (ms.foldl (fun acc m => m.foldl (fun a kv => bumpBy kv.1 kv.2 a) acc) acc).map Prod.fst →
      k ∈ acc.map Prod.fst ∨ ∃ m, m ∈ ms ∧ k ∈ m.map Prod.fst := by
    intro ms
    induction ms with
    | nil => intro acc k h; exact Or.inl (by simpa using h)
    | cons m0 rest ih =>
      intro acc k h
      simp only [List.foldl_cons] at h
      rcases ih _ k h with hacc | ⟨m, hm, hk⟩
      · rcases foldl_bumpBy_keys m0 acc k hacc with h1 | h2
        · exact Or.inl h1
        · exact Or.inr ⟨m0, List.mem_cons_self m0 rest, h2⟩
      · exact Or.inr ⟨m, List.mem_cons_of_mem m0 hm, hk⟩
  intro ms k h
  rcases haux ms [] k h with h1 | h2
  · simp at h1
  · exact h2

/-- The merge loop of the chunked builder preserves the invariant and the
root/alphabet correspondence. -/
theorem parallelLoop_inv (chunks : List (List T)) (A : List T) :
    ∀ (fuel : Nat) (t : Tokenizer T) (sl : List (List T × Nat)) (curr : Nat) (t' : Tokenizer T),
      Inv t curr →
      (∀ s, (assocGet s t.children).isSome ↔ s ∈ A) →
      parallelLoop chunks fuel t sl curr = some t' →
      Inv t' (curr + fuel) ∧
      (∀ s, (assocGet s t'.children).isSome ↔ s ∈ A) := by
  intro fuel
  induction fuel with
  | zero =>
    intro t sl curr t' hinv hroots h
    simp only [parallelLoop] at h
    cases h
    exact ⟨hinv, hroots⟩
  | succ fuel ih =>
    intro t sl curr t' hinv hroots h
    simp only [parallelLoop] at h
    match hmc : mapChunks t chunks with
    | none => rw [hmc] at h; simp at h
    | some rslts =>
      simp only [hmc] at h
      match hmx : maxByVal ((consolidate rslts).filter (fun kv => (assocGet kv.1 sl).isNone)) with
      | none => rw [hmx] at h; simp at h
      | some best =>
        simp only [hmx] at h
        have hbm : best.1 ∈ (consolidate rslts).map Prod.fst :=
          List.mem_map_of_mem Prod.fst (List.mem_of_mem_filter (maxByVal_mem hmx))
        obtain ⟨m, hmem, hk⟩ := consolidate_keys rslts best.1 hbm
        obtain ⟨ch, _, hpc⟩ := mapChunks_mem chunks rslts hmc m hmem
        rcases pairCountLoop_keys t ch (ch.length + 1) [] 0 m hpc best.1 hk with
          hfalse | ⟨hshape, _⟩
        · simp at hfalse
        · have hinv' : Inv (t.register best.1 curr) (curr + 1) := hinv.register hshape
          have hroots' : ∀ s, (assocGet s (t.register best.1 curr).children).isSome ↔ s ∈ A := by
            intro s
            rw [register_roots_of_shape hshape]
            exact hroots s
          obtain ⟨r1, r2⟩ := ih (t.register best.1 curr) sl (curr + 1) t' hinv' hroots' h
          refine ⟨?_, r2⟩
          have : curr + 1 + fuel = curr + (fuel + 1) := by omega
          rw [this] at r1
          exact r1

/-- Everything a successful sequential build guarantees: the invariant at
the final id counter, roots exactly the extracted alphabet, and all trie
paths within the alphabet. -/
theorem generate_good {input : List T} {target : Nat} {t : Tokenizer T}
    (h : generate input target = some t) :
    Inv t ((dedup input).length + (target - (dedup input).length)) ∧
    (∀ s, (assocGet s t.children).isSome ↔ s ∈ dedup input) ∧
    (∀ (pfx : List T) (m : Node T), IsNodeAt t pfx m → ∀ s ∈ pfx, s ∈ dedup input) := by
  unfold generate at h
  rcases hseed : seedLoop (dedup input) Tokenizer.default [] 0 with ⟨t0, sl, c⟩
  simp only [hseed] at h
  have hseed1 : (seedLoop (dedup input) (Tokenizer.default : Tokenizer T) [] 0).1 = t0 := by
    rw [hseed]
  have hseedc : (seedLoop (dedup input) (Tokenizer.default : Tokenizer T) [] 0).2.2 = c := by
    rw [hseed]
  obtain ⟨s1, s2, s3, s4⟩ := seedLoop_inv (dedup input) Tokenizer.default [] 0 []
    Inv_default
    (by intro s; simp [Tokenizer.default, assocGet])
    (by
      intro pfx m hm
      obtain ⟨s, rel, n0, _, hroot, _⟩ := hm
      simp [Tokenizer.default, assocGet] at hroot)
    (by simpa using nodup_dedup input)
  rw [hseed1] at s1 s2 s3
  rw [hseedc] at s4
  have hc : c = (dedup input).length := by omega
  subst hc
  simp only [List.nil_append, Nat.zero_add] at s1 s2 s3
  obtain ⟨r1, r2, r3⟩ := generateLoop_inv input (dedup input)
    (fun s hs => (mem_dedup input s).mpr hs)
    (target - (dedup input).length) t0 sl (dedup input).length t
    (by simpa using s1) s2 s3 h
  exact ⟨r1, r2, r3⟩

/-- Everything a successful chunked build guarantees: the invariant and
roots exactly the deduplicated base vocabulary. -/
theorem parallel_good {chunks : List (List T)} {base : List T} {target : Nat} {t : Tokenizer T}
    (h : parallelGenerateWithBaseVocabulary chunks base target = some t) :
    Inv t ((dedup base).length + (target - (dedup base).length)) ∧
    (∀ s, (assocGet s t.children).isSome ↔ s ∈ dedup base) := by
  unfold parallelGenerateWithBaseVocabulary at h
  rcases hseed : seedLoop (dedup base) Tokenizer.default [] 0 with ⟨t0, sl, c⟩
  simp only [hseed] at h
  have hseed1 : (seedLoop (dedup base) (Tokenizer.default : Tokenizer T) [] 0).1 = t0 := by
    rw [hseed]
  have hseedc : (seedLoop (dedup base) (Tokenizer.default : Tokenizer T) [] 0).2.2 = c := by
    rw [hseed]
  obtain ⟨s1, s2, s3, s4⟩ := seedLoop_inv (dedup base) Tokenizer.default [] 0 []
    Inv_default
    (by intro s; simp [Tokenizer.default, assocGet])
    (by
      intro pfx m hm
      obtain ⟨s, rel, n0, _, hroot, _⟩ := hm
      simp [Tokenizer.default, assocGet] at hroot)
    (by simpa using nodup_dedup base)
  rw [hseed1] at s1 s2
  rw [hseedc] at s4
  have hc : c = (dedup base).length := by omega
  subst hc
  simp only [List.nil_append, Nat.zero_add] at s1 s2
  obtain ⟨r1, r2⟩ := parallelLoop_inv chunks (dedup base)
    (target - (dedup base).length) t0 sl (dedup base).length t
    (by simpa using s1) s2 h
  exact ⟨r1, r2⟩

/-! ### Round trip -/

/-- Under the invariant, the greedy encode loop from any in-range pointer
succeeds on a buffer whose symbols all have root entries, and decoding its
output reproduces exactly the unconsumed suffix of the buffer. -/
theorem tokenizeLoop_roundtrip {t : Tokenizer T} {curr : Nat} (hinv : Inv t curr) (x : List T)
    (hxr : ∀ s ∈ x, (assocGet s t.children).isSome) :
    ∀ (fuel p : Nat), x.length + 1 ≤ p + fuel → p ≤ x.length →
      ∃ ids, t.tokenizeLoop x fuel p = some ids ∧ t.detokenize ids = some (x.drop p) := by
  intro fuel
  induction fuel with
  | zero => intro p h1 h2; omega
  | succ fuel ih =>
    intro p h1 h2
    by_cases hp : p < x.length
    · have hmem : x.get ⟨p, hp⟩ ∈ x := x.get_mem p hp
      have hsome : (assocGet (x.get ⟨p, hp⟩) t.children).isSome := hxr _ hmem
      obtain ⟨child, hch⟩ := Option.isSome_iff_exists.mp hsome
      have hqge : p + 1 ≤ (child.tokenize x p x.length).2 :=
        Node.tokenize_snd_ge x x.length child p
      have hqle : (child.tokenize x p x.length).2 ≤ x.length :=
        Node.tokenize_snd_le x x.length child p hp
      obtain ⟨m, hm1, hm2, _⟩ := Node.tokenize_nin x x.length child p (by omega)
      have hAt : IsNodeAt t (sliceOf x p (child.tokenize x p x.length).2) m := by
        refine ⟨x.get ⟨p, hp⟩, sliceOf x (p + 1) (child.tokenize x p x.length).2, child,
          ?_, hch, hm1⟩
        rw [sliceOf_cons x hp hqge]
      obtain ⟨hlook, _⟩ := hinv.1 _ _ hAt
      obtain ⟨ids, hloop, hdetok⟩ := ih (child.tokenize x p x.length).2 (by omega) hqle
      refine ⟨(child.tokenize x p x.length).1 :: ids, ?_, ?_⟩
      · simp only [Tokenizer.tokenizeLoop]
        rw [dif_pos hp]
        simp only [hch, hloop, Option.map_some]
        rfl
      · have hdrop : sliceOf x p (child.tokenize x p x.length).2 ++
            x.drop (child.tokenize x p x.length).2 = x.drop p :=
          sliceOf_append_drop x (le_trans (Nat.le_succ p) hqge)
        simp [Tokenizer.detokenize, hm2, hlook, hdetok, hdrop]
    · have hpe : p = x.length := by omega
      refine ⟨[], ?_, ?_⟩
      · simp only [Tokenizer.tokenizeLoop]
        rw [dif_neg hp]
      · simp only [Tokenizer.detokenize]
        rw [hpe, List.drop_length]

/-! ### Unknown symbols abort the sequential encoder -/

/-- If some position of the buffer at or beyond the pointer holds a symbol
outside the alphabet `A`, while the trie's roots are exactly `A` and all
its paths stay inside `A`, the encode loop inevitably reaches that symbol
at a window start and fails. -/
theorem tokenizeLoop_unknown {t : Tokenizer T} {A : List T} {u : T}
    (hroots : ∀ s, (assocGet s t.children).isSome ↔ s ∈ A)
    (hsub : ∀ (pfx : List T) (m : Node T), IsNodeAt t pfx m → ∀ s ∈ pfx, s ∈ A)
    (hu : u ∉ A) (x : List T) {i : Nat} (hi : i < x.length) (hiu : x.get ⟨i, hi⟩ = u) :
    ∀ (fuel p : Nat), p ≤ i → t.tokenizeLoop x fuel p = none := by
  intro fuel
  induction fuel with
  | zero => intro p _; rfl
  | succ fuel ih =>
    intro p hpi
    have hp : p < x.length := by omega
    simp only [Tokenizer.tokenizeLoop]
    rw [dif_pos hp]
    match hch : assocGet (x.get ⟨p, hp⟩) t.children with
    | none => simp only [hch]
    | some child =>
      simp only [hch]
      have hpne : p ≠ i := by
        intro he
        subst he
        have : (assocGet (x.get ⟨p, hp⟩) t.children).isSome := by rw [hch]; rfl
        rw [hroots] at this
        rw [hiu] at this
        exact hu this
      have hqge : p + 1 ≤ (child.tokenize x p x.length).2 :=
        Node.tokenize_snd_ge x x.length child p
      obtain ⟨m, hm1, _, _⟩ := Node.tokenize_nin x x.length child p (by omega)
      have hAt : IsNodeAt t (sliceOf x p (child.tokenize x p x.length).2) m := by
        refine ⟨x.get ⟨p, hp⟩, sliceOf x (p + 1) (child.tokenize x p x.length).2, child,
          ?_, hch, hm1⟩
        rw [sliceOf_cons x hp hqge]
      have hqi : (child.tokenize x p x.length).2 ≤ i := by
        by_contra hgt
        push_neg at hgt
        have humem : u ∈ sliceOf x p (child.tokenize x p x.length).2 := by
          rw [← hiu]
          exact get_mem_sliceOf x hpi hgt hi
        exact hu (hsub _ _ hAt u humem)
      rw [ih (child.tokenize x p x.length).2 hqi]
      rfl

/-! ### The counting loop through the encode walk -/

/-- The counting loop is exactly a bump-fold over the scan keys, i.e. over
encode-walk maximal spans extended by one consumed symbol whenever at
least two symbols remain after the span. -/
theorem pairCountLoop_eq_scanKeys (t : Tokenizer T) (x : List T) :
    ∀ (fuel : Nat) (pairs : List (List T × Nat)) (p : Nat),
      pairCountLoop t x fuel pairs p =
        (scanKeys t x fuel p).map (fun ks => ks.foldl (fun a k => bump k a) pairs) := by
  intro fuel
  induction fuel with
  | zero => intro pairs p; rfl
  | succ fuel ih =>
    intro pairs p
    by_cases hp : p < x.length
    · simp only [pairCountLoop, scanKeys]
      rw [if_pos hp, dif_pos hp]
      match hch : assocGet (x.get ⟨p, hp⟩) t.children with
      | none =>
        have hitem : t.tokenizeItemNoWrite x p = none := by
          unfold Tokenizer.tokenizeItemNoWrite
          rw [dif_pos hp, hch]
        simp [hitem, hch]
      | some child =>
        have hitem : t.tokenizeItemNoWrite x p =
            some (child.tokenizeNoWrite x p x.length) := by
          unfold Tokenizer.tokenizeItemNoWrite
          rw [dif_pos hp, hch]
        simp only [hitem, hch, Node.tokenizeNoWrite_eq]
        by_cases hcase : (child.tokenize x p x.length).2 < x.length - 1
        · rw [if_pos hcase, if_pos hcase, ih]
          rw [Option.map_map]
          congr 1
        · rw [if_neg hcase, if_neg hcase, ih]
          rw [Option.map_map]
          congr 1
    · simp only [pairCountLoop, scanKeys]
      rw [if_neg hp, dif_neg hp]
      simp

/-! ### Distinct keys and single-chunk consolidation -/

theorem keys_bump (k : List T) (l : List (List T × Nat)) :
    (bump k l).map Prod.fst =
      if k ∈ l.map Prod.fst then l.map Prod.fst else l.map Prod.fst ++ [k] := by
  induction l with
  | nil => simp [bump]
  | cons hd tl ih =>
    obtain ⟨ka, va⟩ := hd
    by_cases hk : ka = k
    · subst hk
      simp [bump]
    · simp only [bump, if_neg hk, List.map_cons]
      rw [ih]
      by_cases hmem : k ∈ tl.map Prod.fst
      · simp [hmem, Ne.symm hk]
      · simp [hmem, Ne.symm hk]

theorem nodup_keys_bump {k : List T} {l : List (List T × Nat)}
    (h : (l.map Prod.fst).Nodup) : ((bump k l).map Prod.fst).Nodup := by
  rw [keys_bump]
  by_cases hmem : k ∈ l.map Prod.fst
  · simpa [hmem] using h
  · simp [hmem, List.nodup_append, h]

theorem pairCountLoop_keys_nodup (t : Tokenizer T) (x : List T) :
    ∀ (fuel : Nat) (pairs : List (List T × Nat)) (p : Nat) (r : List (List T × Nat)),
      (pairs.map Prod.fst).Nodup → pairCountLoop t x fuel pairs p = some r →
      (r.map Prod.fst).Nodup := by
  intro fuel
  induction fuel with
  | zero => intro pairs p r _ h; simp [pairCountLoop] at h
  | succ fuel ih =>
    intro pairs p r hnd h
    simp only [pairCountLoop] at h
    by_cases hp : p < x.length
    · rw [if_pos hp] at h
      match hitem : t.tokenizeItemNoWrite x p with
      | none => simp only [hitem] at h; exact absurd h (by simp)
      | some q =>
        simp only [hitem] at h
        by_cases hcase : q < x.length - 1
        · rw [if_pos hcase] at h
          exact ih _ _ r (nodup_keys_bump hnd) h
        · rw [if_neg hcase] at h
          exact ih _ _ r (nodup_keys_bump hnd) h
    · rw [if_neg hp] at h
      cases h
      exact hnd

theorem bumpBy_not_mem {k : List T} (v : Nat) {l : List (List T × Nat)}
    (h : k ∉ l.map Prod.fst) : bumpBy k v l = l ++ [(k, v)] := by
  induction l with
  | nil => simp [bumpBy]
  | cons hd tl ih =>
    obtain ⟨ka, va⟩ := hd
    have hka : ka ≠ k := by
      intro he
      exact h (by simp [he])
    simp only [bumpBy, if_neg hka, List.cons_append, List.cons.injEq, true_and]
    exact ih (fun hmem => h (by simp [hmem]))

theorem consolidate_single {m : List (List T × Nat)} (hm : (m.map Prod.fst).Nodup) :
    consolidate [m] = m := by
  have haux : ∀ (l acc : List (List T × Nat)), ((acc ++ l).map Prod.fst).Nodup →
      l.foldl (fun a kv => bumpBy kv.1 kv.2 a) acc = acc ++ l := by
    intro l
    induction l with
    | nil => intro acc _; simp
    | cons kv rest ih =>
      intro acc h
      have hnot : kv.1 ∉ acc.map Prod.fst := by
        intro hmem
        rw [List.map_append] at h
        exact List.disjoint_of_nodup_append h hmem (by simp)
      simp only [List.foldl_cons, bumpBy_not_mem kv.2 hnot]
      have h' : (((acc ++ [kv]) ++ rest).map Prod.fst).Nodup := by
        have he : (acc ++ [kv]) ++ rest = acc ++ kv :: rest := by simp
        rw [he]
        exact h
      have := ih (acc ++ [kv]) h'
      rw [show acc ++ [(kv.1, kv.2)] = acc ++ [kv] from by simp, this]
      simp
  have : consolidate [m] = m.foldl (fun a kv => bumpBy kv.1 kv.2 a) [] := rfl
  rw [this, haux m [] (by simpa using hm)]
  simp

/-! ### Single-chunk parallel build equals the sequential build -/

theorem parallelLoop_single (input : List T) :
    ∀ (fuel : Nat) (t : Tokenizer T) (sl : List (List T × Nat)) (curr : Nat),
      parallelLoop [input] fuel t sl curr = generateLoop input fuel t sl curr := by
  intro fuel
  induction fuel with
  | zero => intro t sl curr; rfl
  | succ fuel ih =>
    intro t sl curr
    simp only [parallelLoop, generateLoop, pairCounts]
    match hpc : pairCountLoop t input (input.length + 1) [] 0 with
    | none =>
      have hmc : mapChunks t [input] = none := by
        simp only [mapChunks, hpc]
      simp only [hmc, hpc]
    | some m =>
      have hmc : mapChunks t [input] = some [m] := by
        simp only [mapChunks, hpc]
        rfl
      have hnd : (m.map Prod.fst).Nodup :=
        pairCountLoop_keys_nodup t input _ [] 0 m (by simp) hpc
      simp only [hmc, hpc, consolidate_single hnd]
      match hmx : maxByVal (m.filter (fun kv => (assocGet kv.1 sl).isNone)) with
      | none => simp only [hmx]
      | some best =>
        simp only [hmx]
        exact ih _ _ _

theorem parallel_single_eq (input : List T) (target : Nat) :
    parallelGenerateWithBaseVocabulary [input] (dedup input) target = generate input target := by
  unfold parallelGenerateWithBaseVocabulary generate
  rw [dedup_idem]
  rcases hseed : seedLoop (dedup input) Tokenizer.default [] 0 with ⟨t0, sl, c⟩
  simp only [hseed]
  exact parallelLoop_single input (target - c) t0 sl c

/-! ### A chunk whose first symbol is unknown aborts the chunked build -/

theorem mapChunks_eq_none_of_mem {t : Tokenizer T} {ch : List T} :
    ∀ (chunks : List (List T)), ch ∈ chunks →
      pairCountLoop t ch (ch.length + 1) [] 0 = none → mapChunks t chunks = none := by
  intro chunks
  induction chunks with
  | nil => intro h; simp at h
  | cons x rest ih =>
    intro hmem hnone
    simp only [mapChunks]
    rcases List.mem_cons.mp hmem with he | hmem'
    · rw [← he, hnone]
    · match hpc : pairCountLoop t x (x.length + 1) [] 0 with
      | none => rfl
      | some m0 =>
        rw [ih hmem' hnone]
        rfl

theorem seedLoop_roots (base : List T) :
    (∀ s, (assocGet s (seedLoop (dedup base) (Tokenizer.default : Tokenizer T) [] 0).1.children).isSome
      ↔ s ∈ dedup base) ∧
    (seedLoop (dedup base) (Tokenizer.default : Tokenizer T) [] 0).2.2 = (dedup base).length := by
  obtain ⟨_, s2, _, s4⟩ := seedLoop_inv (dedup base) Tokenizer.default [] 0 []
    Inv_default
    (by intro s; simp [Tokenizer.default, assocGet])
    (by
      intro pfx m hm
      obtain ⟨s, rel, n0, _, hroot, _⟩ := hm
      simp [Tokenizer.default, assocGet] at hroot)
    (by simpa using nodup_dedup base)
  constructor
  · intro s
    rw [s2 s]
    simp
  · rw [s4]
    omega

/-! ### Claim theorems -/

/-- C1: for every tokenizer produced by a successful build (sequential, or
chunked with its supplied base vocabulary) and every symbol sequence
composed solely of trained-alphabet symbols, encoding succeeds and
decoding the encoding returns the sequence exactly. -/
theorem claim1_roundtrip {input base : List T} {chunks : List (List T)} {target : Nat}
    {t : Tokenizer T} {x : List T}
    (h : (generate input target = some t ∧ ∀ s ∈ x, s ∈ dedup input) ∨
         (parallelGenerateWithBaseVocabulary chunks base target = some t ∧
           ∀ s ∈ x, s ∈ dedup base)) :
    ∃ ids, t.tokenize x = some ids ∧ t.detokenize ids = some x := by
  rcases h with ⟨hgen, hx⟩ | ⟨hgen, hx⟩
  · obtain ⟨hinv, hroots, _⟩ := generate_good hgen
    have hxr : ∀ s ∈ x, (assocGet s t.children).isSome := fun s hs => (hroots s).mpr (hx s hs)
    obtain ⟨ids, h1, h2⟩ :=
      tokenizeLoop_roundtrip hinv x hxr (x.length + 1) 0 (by omega) (by omega)
    exact ⟨ids, h1, by simpa using h2⟩
  · obtain ⟨hinv, hroots⟩ := parallel_good hgen
    have hxr : ∀ s ∈ x, (assocGet s t.children).isSome := fun s hs => (hroots s).mpr (hx s hs)
    obtain ⟨ids, h1, h2⟩ :=
      tokenizeLoop_roundtrip hinv x hxr (x.length + 1) 0 (by omega) (by omega)
    exact ⟨ids, h1, by simpa using h2⟩

/-- C1 witness: the concrete build `generate [0] 1` and the sequence `[0]`. -/
theorem claim1_roundtrip_witness :
    ((generate [0] 1 = some soloTok ∧ ∀ s ∈ ([0] : List Nat), s ∈ dedup [0]) ∨
      (parallelGenerateWithBaseVocabulary ([] : List (List Nat)) [] 1 = some soloTok ∧
        ∀ s ∈ ([0] : List Nat), s ∈ dedup ([] : List Nat))) ∧
    ∃ ids, soloTok.tokenize [0] = some ids ∧ soloTok.detokenize ids = some [0] :=
  ⟨Or.inl ⟨rfl, by decide⟩,
    @claim1_roundtrip Nat _ [0] [] [] 1 soloTok [0] (Or.inl ⟨rfl, by decide⟩)⟩

/-- C2: for every corpus and every reachable target size (the extracted
alphabet does not exceed the target), after a successful `generate` the
lookup holds exactly the token ids `0..target-1`: the alphabet receives
the first ids and each merge round appends the next, so ids are strictly
increasing and contiguous. -/
theorem claim2_vocabulary_size {input : List T} {target : Nat} {t : Tokenizer T}
    (hreach : (dedup input).length ≤ target) (h : generate input target = some t) :
    ∀ i : Nat, (assocGet i t.lookup).isSome ↔ i < target := by
  obtain ⟨hinv, _, _⟩ := generate_good h
  intro i
  have he : (dedup input).length + (target - (dedup input).length) = target := by omega
  rw [he] at hinv
  exact hinv.2 i

/-- C2 witness: `generate [0, 0, 0] 2` yields exactly the ids 0 and 1. -/
theorem claim2_vocabulary_size_witness :
    (dedup ([0, 0, 0] : List Nat)).length ≤ 2 ∧ generate [0, 0, 0] 2 = some soloPairTok ∧
    (∀ i : Nat, (assocGet i soloPairTok.lookup).isSome ↔ i < 2) :=
  ⟨by decide, rfl, @claim2_vocabulary_size Nat _ [0, 0, 0] 2 soloPairTok (by decide) rfl⟩

/-- C3 counterexample: at round 1 of `generate [0, 1, 0, 1] 3` the code's
counter has no entry for the adjacent-span concatenation `[1, 0]`, while
the counting step the claim describes (adjacent pairs of all emitted
spans) gives it count 1. -/
theorem claim3_counterexample :
    (seedLoop (dedup [0, 1, 0, 1]) Tokenizer.default [] 0).1 = pairTrieAB ∧
    (pairCounts pairTrieAB [0, 1, 0, 1]).map (fun cs => assocGet [1, 0] cs) = some none ∧
    (specAdjacentPairCounts pairTrieAB [0, 1, 0, 1]).map (fun cs => assocGet [1, 0] cs) =
      some (some 1) :=
  ⟨rfl, rfl, rfl⟩

/-- C3 (amended): each round's counter is a bump-fold over scan keys: the
scan matches the maximal trie span exactly as one encode dispatch would,
but keys it extended by the one following raw symbol whenever at least two
symbols remain after the span, consuming that symbol, and otherwise keys
the bare span; so adjacent emitted spans are never concatenated and the
scan is offset by one symbol per counted window relative to encode. -/
theorem claim3_counting_amended (t : Tokenizer T) (x : List T) (fuel : Nat)
    (pairs : List (List T × Nat)) (p : Nat) :
    pairCountLoop t x fuel pairs p =
      (scanKeys t x fuel p).map (fun ks => ks.foldl (fun a k => bump k a) pairs) :=
  pairCountLoop_eq_scanKeys t x fuel pairs p

/-- C4: evaluation of the builder at the failing input `[0, 0, 1]` with
target 4: because `straight_lookup` is never extended past the singleton
seeding, round 2 re-registers the already-registered span `[0, 0]`, so the
ids 2 and 3 both map to the same symbol sequence and the lookup is not
injective. -/
theorem claim4_bug_eval :
    (generate ([0, 0, 1] : List Nat) 4).map
      (fun t => (assocGet 2 t.lookup, assocGet 3 t.lookup)) =
      some (some [0, 0], some [0, 0]) :=
  rfl

/-- C5 counterexample: round 1 of `generate [0, 1, 0, 1] 3` counts the
span `[0, 1]` once, not twice as the claim states. -/
theorem claim5_counterexample :
    (pairCounts pairTrieAB [0, 1, 0, 1]).map (fun cs => assocGet [0, 1] cs) = some (some 1) ∧
    some (some 1) ≠ some (some (2 : Nat)) :=
  ⟨rfl, by decide⟩

/-- C5 (amended): for the corpus `[0, 1, 0, 1]` with target 3, round 1
counts `[0, 1]`, `[0]` and `[1]` once each; after filtering the seeded
singletons the winner `[0, 1]` is registered with id 2, and encoding the
corpus with the resulting tokenizer yields `[2, 2]`. -/
theorem claim5_amended :
    (seedLoop (dedup [0, 1, 0, 1]) Tokenizer.default [] 0).1 = pairTrieAB ∧
    pairCounts pairTrieAB [0, 1, 0, 1] = some [([0, 1], 1), ([0], 1), ([1], 1)] ∧
    (generate [0, 1, 0, 1] 3).map (fun t => assocGet 2 t.lookup) = some (some [0, 1]) ∧
    (generate [0, 1, 0, 1] 3).map (fun t => t.tokenize [0, 1, 0, 1]) = some (some [2, 2]) :=
  ⟨rfl, rfl, rfl, rfl⟩

/-- C6: with the deterministic iteration order of this embedding, the
sequential build and the chunked build run on the corpus as a single chunk
with the corpus alphabet as base vocabulary produce identical id-to-span
lookups (in fact identical tokenizers). -/
theorem claim6_parallel_sequential_equiv (input : List T) (target : Nat) :
    (parallelGenerateWithBaseVocabulary [input] (dedup input) target).map Tokenizer.lookup =
      (generate input target).map Tokenizer.lookup := by
  rw [parallel_single_eq]

/-- C7 counterexample: a chunked build can register a span containing a
symbol that has no root-level entry; encode of an input containing that
symbol then succeeds and produces output, contradicting the claim over
every trained tokenizer. -/
theorem claim7_counterexample :
    (parallelGenerateWithBaseVocabulary ([[0, 1, 0]] : List (List Nat)) [0] 2).map
      (fun t => ((assocGet 1 t.children).isNone, t.tokenize [0, 1])) =
      some (true, some [1]) :=
  rfl

/-- C7 (amended): for every tokenizer produced by a successful sequential
build, encode of an input containing a symbol with no root-level trie
entry fails fatally and produces no output. -/
theorem claim7_amended {input : List T} {target : Nat} {t : Tokenizer T} {x : List T} {u : T}
    (h : generate input target = some t) (hu : u ∈ x)
    (hnoroot : assocGet u t.children = none) :
    t.tokenize x = none := by
  obtain ⟨_, hroots, hsub⟩ := generate_good h
  have hua : u ∉ dedup input := by
    intro hmem
    have hsome : (assocGet u t.children).isSome = true := (hroots u).mpr hmem
    rw [hnoroot] at hsome
    exact absurd hsome (by simp)
  obtain ⟨⟨i, hi⟩, hiu⟩ := List.mem_iff_get.mp hu
  exact tokenizeLoop_unknown hroots hsub hua x hi hiu (x.length + 1) 0 (Nat.zero_le i)

/-- C7 witness: `generate [0] 1` and the input `[0, 1]`, whose symbol 1
has no root entry. -/
theorem claim7_amended_witness :
    generate [0] 1 = some soloTok ∧ (1 ∈ ([0, 1] : List Nat)) ∧
    assocGet 1 soloTok.children = none ∧ soloTok.tokenize [0, 1] = none :=
  ⟨rfl, by decide, rfl, @claim7_amended Nat _ [0] 1 soloTok [0, 1] 1 rfl (by decide) rfl⟩

/-- C8: for every tokenizer returned by a successful build, sequential or
chunked, every node present in the trie carries a token id whose lookup
entry is exactly the node's key path from the root; in particular the
greedy walk always emits the id of the span it actually consumed and no
reachable node is left with the placeholder id in its unassigned sense. -/
theorem claim8_trie_lookup_inv {input base : List T} {chunks : List (List T)} {target : Nat}
    {t : Tokenizer T}
    (h : generate input target = some t ∨
         parallelGenerateWithBaseVocabulary chunks base target = some t) :
    ∀ (pfx : List T) (m : Node T), IsNodeAt t pfx m →
      assocGet m.tokenValue t.lookup = some pfx := by
  rcases h with h | h
  · obtain ⟨hinv, _, _⟩ := generate_good h
    exact fun pfx m hm => (hinv.1 pfx m hm).1
  · obtain ⟨hinv, _⟩ := parallel_good h
    exact fun pfx m hm => (hinv.1 pfx m hm).1

/-- C8 witness: the node at path `[0]` of `generate [0] 1`. -/
theorem claim8_trie_lookup_inv_witness :
    (generate [0] 1 = some soloTok ∨
      parallelGenerateWithBaseVocabulary ([] : List (List Nat)) [] 1 = some soloTok) ∧
    IsNodeAt soloTok [0] (Node.mk 0 0 []) ∧
    assocGet (Node.mk 0 0 [] : Node Nat).tokenValue soloTok.lookup = some [0] :=
  ⟨Or.inl rfl, ⟨0, [], Node.mk 0 0 [], rfl, rfl, NIn.refl (Node.mk 0 0 [])⟩,
    @claim8_trie_lookup_inv Nat _ [0] [] [] 1 soloTok (Or.inl rfl) [0] (Node.mk 0 0 [])
      ⟨0, [], Node.mk 0 0 [], rfl, rfl, NIn.refl (Node.mk 0 0 [])⟩⟩

/-- C9 counterexample: the chunk `[0, 1, 0]` contains the symbol 1 absent
from the base vocabulary `[0]`, the merge loop is entered, yet the build
completes successfully: the unknown symbol is consumed as the one-symbol
window extension without any trie lookup. -/
theorem claim9_counterexample :
    (1 ∈ ([0, 1, 0] : List Nat)) ∧ 1 ∉ dedup ([0] : List Nat) ∧
    (dedup ([0] : List Nat)).length < 2 ∧
    (parallelGenerateWithBaseVocabulary [[0, 1, 0]] [0] 2).isSome = true := by
  decide

/-- C9 (amended): if some chunk begins with a symbol absent from the base
vocabulary and the merge loop is entered, the chunked build aborts fatally
during the map phase of the first round. -/
theorem claim9_amended {chunks : List (List T)} {base : List T} {target : Nat}
    {u : T} {rest : List T} (hc : u :: rest ∈ chunks) (hu : u ∉ dedup base)
    (ht : (dedup base).length < target) :
    parallelGenerateWithBaseVocabulary chunks base target = none := by
  obtain ⟨hroots, hc2⟩ := @seedLoop_roots T _ base
  unfold parallelGenerateWithBaseVocabulary
  rcases hseed : seedLoop (dedup base) Tokenizer.default [] 0 with ⟨t0, sl, c⟩
  simp only [hseed]
  have ht0 : (seedLoop (dedup base) (Tokenizer.default : Tokenizer T) [] 0).1 = t0 := by
    rw [hseed]
  have hcc : c = (dedup base).length := by
    rw [← hc2, hseed]
  rw [ht0] at hroots
  obtain ⟨fuel0, hf⟩ : ∃ fuel0, target - c = fuel0 + 1 := ⟨target - c - 1, by omega⟩
  rw [hf]
  have hnone : pairCountLoop t0 (u :: rest) ((u :: rest).length + 1) [] 0 = none := by
    have hlen : (u :: rest).length + 1 = (rest.length + 1) + 1 := by simp
    rw [hlen]
    simp only [pairCountLoop]
    have hp : 0 < (u :: rest).length := by simp
    rw [if_pos hp]
    have hitem : t0.tokenizeItemNoWrite (u :: rest) 0 = none := by
      unfold Tokenizer.tokenizeItemNoWrite
      rw [dif_pos hp]
      have hg : (u :: rest).get ⟨0, hp⟩ = u := rfl
      rw [hg]
      have hnr : assocGet u t0.children = none := by
        have h1 : ¬ (assocGet u t0.children).isSome := by
          rw [hroots u]
          exact hu
        exact Option.not_isSome_iff_eq_none.mp h1
      rw [hnr]
    simp only [hitem]
  have hmc : mapChunks t0 chunks = none := mapChunks_eq_none_of_mem chunks hc hnone
  simp only [parallelLoop, hmc]

/-- C9 witness: the single chunk `[1]` with base vocabulary `[0]` and
target 2 aborts. -/
theorem claim9_amended_witness :
    ([1] ∈ ([[1]] : List (List Nat))) ∧ (1 ∉ dedup ([0] : List Nat)) ∧
    (dedup ([0] : List Nat)).length < 2 ∧
    parallelGenerateWithBaseVocabulary [[1]] [0] 2 = none :=
  ⟨by decide, by decide, by decide,
    @claim9_amended Nat _ [[1]] [0] 2 1 [] (by decide) (by decide) (by decide)⟩

/-- C10: for every tokenizer, including one with an empty vocabulary,
encoding the empty symbol sequence yields the empty id sequence and
decoding the empty id sequence yields the empty symbol sequence, without
failure. -/
theorem claim10_empty_io (t : Tokenizer T) :
    t.tokenize ([] : List T) = some [] ∧ t.detokenize [] = some [] := by
  constructor
  · simp [Tokenizer.tokenize, Tokenizer.tokenizeLoop]
  · rfl

end BPE
